import Mathlib

deriving instance DecidableEq for Except

/-!
Verification of the keyword-relevance retrieval and quiz-text parsing
subsystem of the NS_Project QuizBot repository.

The Python sources are shallowly embedded: strings are `List Char`
(`String` in Lean 4.14 wraps a `List Char`, so `String.data` converts),
Python dictionaries keyed by question index are association lists, and
fallible operations (Python `IndexError`) are modelled with `Except`.
All definitions are executable and kernel-reducible (fuel-based
recursion instead of well-founded recursion where needed).
-/

namespace QuizBot

/-! ### Python string primitives on `List Char` -/

/-- Python `str.strip()`: drop leading and trailing whitespace. -/
def pyStrip (s : List Char) : List Char :=
  ((s.dropWhile Char.isWhitespace).reverse.dropWhile Char.isWhitespace).reverse

/-- Python `str.lower()` (ASCII letters, as in the repository's inputs). -/
def pyLower (s : List Char) : List Char :=
  s.map Char.toLower

/-- Auxiliary loop for `pySplit`; `fuel` bounds the recursion and is always
sufficient when started at the length of the string being split. -/
def pySplitGo (sep : List Char) : Nat → List Char → List Char → List (List Char)
  | _, [], acc => [acc.reverse]
  | 0, s, acc => [acc.reverse ++ s]
  | fuel + 1, c :: rest, acc =>
    if sep ≠ [] ∧ sep.isPrefixOf (c :: rest) then
      acc.reverse :: pySplitGo sep fuel (List.drop (sep.length - 1) rest) []
    else
      pySplitGo sep fuel rest (c :: acc)

/-- Python `s.split(sep)` for a nonempty separator `sep`: split on every
non-overlapping left-to-right occurrence, keeping empty parts. -/
def pySplit (sep s : List Char) : List (List Char) :=
  pySplitGo sep s.length s []

/-- Python `s.count(sub)` for nonempty `sub`: the number of non-overlapping
left-to-right occurrences (`len(s.split(sub)) - 1`). -/
def pyCount (sub s : List Char) : Nat :=
  (pySplit sub s).length - 1

/-- Python substring containment `sub in s`. -/
def pyInStr (sub : List Char) : List Char → Bool
  | [] => sub.isPrefixOf []
  | c :: rest => sub.isPrefixOf (c :: rest) || pyInStr sub rest

/-- Python `s.split()` (no separator): split on whitespace runs,
discarding empty tokens. -/
def pyWords (s : List Char) : List (List Char) :=
  (List.splitOnP Char.isWhitespace s).filter (fun w => w ≠ [])

/-- Python `s.split(sep, 1)[-1]` for a one-character separator: everything
after the first occurrence of `sep`, or `s` itself if `sep` is absent. -/
def splitOnceAfter (sep : Char) (s : List Char) : List Char :=
  if s.contains sep then (s.dropWhile (fun c => c ≠ sep)).tail else s

/-- Python `s.replace(old, new)` for a one-character pattern `old`. -/
def pyReplaceChar (old : Char) (new : List Char) (s : List Char) : List Char :=
  (s.map (fun c => if c = old then new else [c])).flatten

/-! ### QuizTextParser (streamlit_simple.py, `parse_mcq_questions` lines
182-209 and `parse_tf_questions` lines 211-232) -/

/-- One parsed question: its text and its ordered (label, text) option
pairs. MCQ labels are one-character strings, True/False labels are the
full words, exactly as the Python dict `{'question': ..., 'options': ...}`. -/
structure Question where
  question : List Char
  options : List (List Char × List Char)
deriving DecidableEq, Repr

/-- Line 194 / line 222: a (stripped, nonempty) line starts a new question
if it starts with the literal `Question`, or its first character is a digit
and a `.` occurs among its first three characters. -/
def is_question_line (line : List Char) : Bool :=
  ("Question".data).isPrefixOf line ||
    (match line with
     | [] => false
     | c :: _ => c.isDigit && (line.take 3).contains '.')

/-- Line 198 / line 223: question text is the stripped part after the first
`:` when a colon is present, else the whole line. -/
def question_text_of (line : List Char) : List Char :=
  if line.contains ':' then pyStrip (splitOnceAfter ':' line) else line

/-- One iteration of the `for line in lines` loop of `parse_mcq_questions`
(lines 188-204). State: (finished questions, open question). Accessing
`line[1]` on a one-character line raises `IndexError`, modelled as
`Except.error`. -/
def mcq_step (st : List Question × Option Question) (raw : List Char) :
    Except Unit (List Question × Option Question) :=
  let line := pyStrip raw
  if line = [] then .ok st
  else if is_question_line line then
    let newQ : Question := { question := question_text_of line, options := [] }
    match st.2 with
    | some q => .ok (st.1 ++ [q], some newQ)
    | none => .ok (st.1, some newQ)
  else
    match st.2 with
    | some q =>
      match line with
      | c0 :: restLine =>
        if c0 = 'A' ∨ c0 = 'B' ∨ c0 = 'C' ∨ c0 = 'D' then
          match restLine with
          | c1 :: _ =>
            if c1 = ')' ∨ c1 = '.' then
              .ok (st.1, some { q with options := q.options ++ [([c0], pyStrip (line.drop 2))] })
            else .ok st
          | [] => .error ()
        else .ok st
      | [] => .ok st
    | none => .ok st

/-- The scan over all lines of `parse_mcq_questions` before the final
flush (lines 184-204). -/
def mcq_scan (text : String) : Except Unit (List Question × Option Question) :=
  (pySplit ['\n'] (pyStrip text.data)).foldlM mcq_step ([], none)

/-- `parse_mcq_questions` (streamlit_simple.py lines 182-209): the final
open question is appended only when it has at least one option
(lines 206-207). -/
def parse_mcq_questions (text : String) : Except Unit (List Question) :=
  match mcq_scan text with
  | .error e => .error e
  | .ok (qs, some q) => if q.options ≠ [] then .ok (qs ++ [q]) else .ok qs
  | .ok (qs, none) => .ok qs

/-- One iteration of the `for line in lines` loop of `parse_tf_questions`
(lines 216-230). `question_text[0]` on an empty question text raises
`IndexError`, modelled as `Except.error`. -/
def tf_step (qs : List Question) (raw : List Char) : Except Unit (List Question) :=
  let line := pyStrip raw
  if line = [] then .ok qs
  else if is_question_line line then
    let qt := question_text_of line
    match qt with
    | [] => .error ()
    | c :: _ =>
      let qt2 := if c.isDigit then pyStrip (splitOnceAfter '.' qt) else qt
      .ok (qs ++ [{ question := qt2,
                    options := [("True".data, "True".data), ("False".data, "False".data)] }])
  else .ok qs

/-- `parse_tf_questions` (streamlit_simple.py lines 211-232). -/
def parse_tf_questions (text : String) : Except Unit (List Question) :=
  (pySplit ['\n'] (pyStrip text.data)).foldlM tf_step []

/-! ### AnswerReconciler (streamlit_simple.py, correct-answer extraction
loop lines 423-432 and quiz-results scoring block lines 439-483) -/

/-- The recognised first characters of an extracted correct answer
(line 429). -/
def answer_letters : List Char := ['A', 'B', 'C', 'D', 'T', 'F']

/-- The correct-answer extraction loop (streamlit_simple.py lines 423-432):
for each line of the evaluation text containing `Correct Answer:`, take the
segment after the first occurrence of that marker up to the next comma,
strip it, delete `[` and `]`, strip again, and if the first character is in
`answer_letters` record that single character under the line's index. -/
def extract_correct_answers (evaluation : String) : List (Nat × List Char) :=
  ((pySplit ['\n'] evaluation.data).enum).filterMap (fun il =>
    if pyInStr ("Correct Answer:".data) il.2 then
      let seg := ((pySplit ("Correct Answer:".data) il.2)[1]?).getD []
      let piece0 := ((pySplit [','] seg)[0]?).getD []
      let c1 := pyStrip piece0
      let c2 := pyStrip (pyReplaceChar ']' [] (pyReplaceChar '[' [] c1))
      match c2 with
      | c :: _ => if c ∈ answer_letters then some (il.1, [c]) else none
      | [] => none
    else none)

/-- Line 441-443: the per-question comparison — user answer defaults to
`No answer`, correct answer defaults to `?`, correct iff exactly equal. -/
def is_correct_at (user_answers correct_answers : List (Nat × List Char)) (idx : Nat) : Bool :=
  decide ((user_answers.lookup idx).getD "No answer".data
            = (correct_answers.lookup idx).getD "?".data)

/-- The quiz-results scoring block (streamlit_simple.py lines 439-483):
count correct answers over `enumerate(parsed_questions)`, total is the
question count, and the percentage is `correct/total*100` guarded by
`if total > 0 else 0` (line 480). -/
def score_quiz (parsed_questions : List Question)
    (user_answers correct_answers : List (Nat × List Char)) : Nat × Nat × ℚ :=
  let correct_count : Nat := parsed_questions.enum.foldl
    (fun acc iq => if is_correct_at user_answers correct_answers iq.1 then acc + 1 else acc) 0
  let total := parsed_questions.length
  let percentage : ℚ := if 0 < total then (correct_count : ℚ) / (total : ℚ) * 100 else 0
  (correct_count, total, percentage)

end QuizBot

namespace QuizBot

/-! ### Claim C7: the four-option MCQ example -/

/-- C7: `parse_mcq` applied to the four-option input yields exactly one
question with text `What is RSA?` and options A-D in input order. -/
theorem parse_mcq_four_option_example :
    parse_mcq_questions "Question 1: What is RSA?\nA) Cipher\nB) Hash\nC) Protocol\nD) Key" =
      Except.ok [⟨"What is RSA?".data,
        [("A".data, "Cipher".data), ("B".data, "Hash".data),
         ("C".data, "Protocol".data), ("D".data, "Key".data)]⟩] := by
  decide

/-! ### Claim C1: zero-option question blocks -/

/-- C1 counterexample: it is not true that every question in the output of
`parse_mcq` has at least one option. On
`"Question 1: a\nQuestion 2: b\nA) x"` the block for question 1 is closed
by the start of question 2 and is appended with zero options. -/
theorem parse_mcq_keeps_mid_empty_question :
    ¬ ∀ (text : String) (qs : List Question),
        parse_mcq_questions text = Except.ok qs → ∀ q ∈ qs, q.options ≠ [] := by
  intro h
  exact h "Question 1: a\nQuestion 2: b\nA) x"
      [⟨"a".data, []⟩, ⟨"b".data, [("A".data, "x".data)]⟩] (by decide)
      ⟨"a".data, []⟩ (by decide) rfl

/-- C1 amended: only the question block closed by end of input is dropped
when it has zero parsed options — if the line scan ends with an open
question whose option list is empty, the result is exactly the previously
finalized questions. -/
theorem parse_mcq_drops_trailing_empty (text : String) (qs : List Question) (q : Question)
    (h : mcq_scan text = Except.ok (qs, some q)) (hopt : q.options = []) :
    parse_mcq_questions text = Except.ok qs := by
  simp [parse_mcq_questions, h, hopt]

/-- C1 amended, witness: a lone question line with no option lines parses
to the empty question list. -/
theorem parse_mcq_drops_trailing_empty_witness :
    parse_mcq_questions "Question 1: a" = Except.ok [] :=
  parse_mcq_drops_trailing_empty "Question 1: a" [] ⟨"a".data, []⟩ (by decide) rfl

end QuizBot

namespace QuizBot

/-! ### Claim C2: totality of the parsers -/

/-- An `Except` value is `ok` exactly when some result exists. -/
theorem except_isOk_iff {ε α : Type} (e : Except ε α) : e.isOk = true ↔ ∃ a, e = Except.ok a := by
  cases e <;> simp [Except.isOk, Except.toBool]

/-- `mcq_step` only raises on a stripped line of length exactly 1. -/
theorem mcq_step_isOk (st : List Question × Option Question) (raw : List Char)
    (h : pyStrip raw = [] ∨ 2 ≤ (pyStrip raw).length) :
    (mcq_step st raw).isOk = true := by
  rcases h with h | h
  · simp [mcq_step, h, Except.isOk, Except.toBool]
  · rcases hl : pyStrip raw with _ | ⟨c0, _ | ⟨c1, tl⟩⟩
    · rw [hl] at h; simp at h
    · rw [hl] at h; simp at h
    · simp only [mcq_step, hl]
      repeat' split
      all_goals rfl

/-- `tf_step` only raises on a question line whose question text is empty. -/
theorem tf_step_isOk (qs : List Question) (raw : List Char)
    (h : is_question_line (pyStrip raw) = true → question_text_of (pyStrip raw) ≠ []) :
    (tf_step qs raw).isOk = true := by
  by_cases hq : is_question_line (pyStrip raw) = true
  · rcases hqt : question_text_of (pyStrip raw) with _ | ⟨c, rest⟩
    · exact absurd hqt (h hq)
    · simp only [tf_step, hq, hqt]
      repeat' split
      all_goals rfl
  · simp only [tf_step, hq]
    repeat' split
    all_goals simp_all [Except.isOk, Except.toBool]

/-- A fold of steps that all return `ok` returns `ok`. -/
theorem foldlM_ok_of_steps {σ β : Type} (f : σ → β → Except Unit σ) :
    ∀ (l : List β) (s : σ), (∀ s' b, b ∈ l → (f s' b).isOk = true) →
      ∃ s', l.foldlM f s = Except.ok s'
  | [], s, _ => ⟨s, rfl⟩
  | b :: l, s, h => by
    obtain ⟨s₁, h₁⟩ := (except_isOk_iff _).mp (h s b (List.mem_cons_self b l))
    obtain ⟨s₂, h₂⟩ := foldlM_ok_of_steps f l s₁ (fun s' b' hb' => h s' b' (List.mem_cons_of_mem _ hb'))
    exact ⟨s₂, by rw [List.foldlM_cons, h₁]; exact h₂⟩

/-- C2 counterexample: the parsers are not total. `parse_mcq` raises
`IndexError` on a one-character option-letter line following an open
question (Python `line[1]`), and `parse_tf` raises on a question line whose
text after the colon is empty (Python `question_text[0]`). -/
theorem parse_raises_on_malformed :
    parse_mcq_questions "Question 1: a\nA" = Except.error () ∧
    parse_tf_questions "Question:" = Except.error () := by decide

/-- C2 amended: `parse_mcq` returns normally on every input whose stripped
lines are all empty or at least two characters long, and `parse_tf` returns
normally whenever every question line has nonempty question text; other
malformed line shapes are skipped best-effort without raising. -/
theorem parse_total_on_wellformed_lines (text : String) :
    ((∀ l ∈ pySplit ['\n'] (pyStrip text.data), pyStrip l = [] ∨ 2 ≤ (pyStrip l).length) →
      ∃ qs, parse_mcq_questions text = Except.ok qs) ∧
    ((∀ l ∈ pySplit ['\n'] (pyStrip text.data),
        is_question_line (pyStrip l) = true → question_text_of (pyStrip l) ≠ []) →
      ∃ qs, parse_tf_questions text = Except.ok qs) := by
  constructor
  · intro h
    obtain ⟨⟨qs, cur⟩, hscan⟩ := foldlM_ok_of_steps mcq_step
      (pySplit ['\n'] (pyStrip text.data)) ([], none)
      (fun st raw hraw => mcq_step_isOk st raw (h raw hraw))
    have hs : mcq_scan text = Except.ok (qs, cur) := hscan
    cases cur with
    | none => exact ⟨qs, by simp [parse_mcq_questions, hs]⟩
    | some q =>
      by_cases hopt : q.options = []
      · exact ⟨qs, by simp [parse_mcq_questions, hs, hopt]⟩
      · exact ⟨qs ++ [q], by simp [parse_mcq_questions, hs, hopt]⟩
  · intro h
    obtain ⟨qs, hscan⟩ := foldlM_ok_of_steps tf_step
      (pySplit ['\n'] (pyStrip text.data)) []
      (fun st raw hraw => tf_step_isOk st raw (h raw hraw))
    exact ⟨qs, hscan⟩

/-- C2 amended, witness: well-formed MCQ and TF inputs parse without
raising. -/
theorem parse_total_on_wellformed_lines_witness :
    (∃ qs, parse_mcq_questions "Question 1: a\nA) x" = Except.ok qs) ∧
    (∃ qs, parse_tf_questions "Question 1: b" = Except.ok qs) :=
  ⟨(parse_total_on_wellformed_lines "Question 1: a\nA) x").1 (by decide),
   (parse_total_on_wellformed_lines "Question 1: b").2 (by decide)⟩

end QuizBot

namespace QuizBot

/-! ### Claim C3: True/False label conventions between parser and
reconciler -/

/-- C3 (code bug): the parser labels True/False options with the full
words, but the extraction loop records only the first character of the
asserted answer (line 430, `correct[0]`), so a user answer equal to the
asserted label `True` is compared against `T` and counted wrong by the
exact string-equality check. -/
theorem tf_label_mismatch :
    parse_tf_questions "Question 1: TLS uses symmetric keys." =
      Except.ok [⟨"TLS uses symmetric keys.".data,
        [("True".data, "True".data), ("False".data, "False".data)]⟩] ∧
    extract_correct_answers "Question 1: Correct Answer: [True], Explanation: ok" =
      [(0, "T".data)] ∧
    (score_quiz [⟨"TLS uses symmetric keys.".data,
        [("True".data, "True".data), ("False".data, "False".data)]⟩]
      [(0, "True".data)] [(0, "T".data)]).1 = 0 := by
  decide

/-! ### Claim C6: the scoring computation -/

/-- Folding the per-question correctness test over an enumerated list
counts the indices satisfying it. -/
theorem foldl_enumFrom_count (P : Nat → Bool) :
    ∀ (l : List Question) (i acc : Nat),
      (l.enumFrom i).foldl (fun acc iq => if P iq.1 then acc + 1 else acc) acc
        = acc + (List.range' i l.length).countP P
  | [], i, acc => by simp
  | q :: l, i, acc => by
    rw [List.enumFrom_cons, List.foldl_cons, foldl_enumFrom_count P l (i + 1),
        List.length_cons, List.range'_succ, List.countP_cons]
    rcases h : P i
    · simp [h]
    · simp [h]; omega

/-- C6: scoring counts question `i` correct iff the user answer at `i`
(default `No answer`) equals the correct answer at `i` (default `?`); the
percentage is `100 x correct / total` and `0` when the total is `0`; and
the concrete example `questions=[q0,q1]`, `user={0:A}`,
`correct={0:A,1:B}` scores `(1, 2, 50.0)`. -/
theorem score_quiz_spec (questions : List Question) (ua ca : List (Nat × List Char)) :
    (score_quiz questions ua ca).1
        = (List.range questions.length).countP (is_correct_at ua ca) ∧
    (score_quiz questions ua ca).2.1 = questions.length ∧
    (score_quiz questions ua ca).2.2 =
      (if 0 < questions.length
       then ((List.range questions.length).countP (is_correct_at ua ca) : ℚ)
              / (questions.length : ℚ) * 100
       else 0) ∧
    score_quiz [⟨"q0".data, []⟩, ⟨"q1".data, []⟩] [(0, "A".data)]
      [(0, "A".data), (1, "B".data)] = (1, 2, 50) := by
  have h1 : (score_quiz questions ua ca).1
      = (List.range questions.length).countP (is_correct_at ua ca) := by
    show (questions.enum.foldl _ 0) = _
    rw [List.enum, foldl_enumFrom_count, List.range_eq_range']
    simp
  have h3 : (score_quiz questions ua ca).2.2 =
      (if 0 < questions.length
       then ((score_quiz questions ua ca).1 : ℚ) / (questions.length : ℚ) * 100
       else 0) := rfl
  rw [h1] at h3
  refine ⟨h1, rfl, h3, ?_⟩
  refine Prod.ext (by decide) (Prod.ext (by decide) ?_)
  show (if (0:Nat) < 2 then (((1:Nat) : ℚ) / ((2:Nat) : ℚ) * 100) else 0) = 50
  norm_num

end QuizBot

namespace QuizBot

/-! ### KeywordScorer (nsrag/code_assistant.py, `find_relevant_files`
lines 37-60) -/

/-- The relevance score of one file (code_assistant.py lines 43-53): for
every whitespace-separated token of the lowercased query longer than 3
characters, add the number of non-overlapping occurrences of the token in
the lowercased content; then add a flat bonus of 10 once if any
`/`-delimited segment of the lowercased path is a substring of the
lowercased query. -/
def file_score (query_lower file_path content : List Char) : Nat :=
  let content_lower := pyLower content
  let score := (pyWords query_lower).foldl
    (fun acc word => if 3 < word.length then acc + pyCount word content_lower else acc) 0
  if (pySplit ['/'] (pyLower file_path)).any (fun part => pyInStr part query_lower) then
    score + 10
  else score

/-- Lines 42-56: score every file, keeping (path, content, score) triples
with positive score in input order (Python dicts preserve insertion
order). -/
def scored_files_of (query : String) (code_files : List (String × String)) :
    List (String × String × Nat) :=
  code_files.filterMap (fun fc =>
    let score := file_score (pyLower query.data) fc.1.data fc.2.data
    if 0 < score then some (fc.1, fc.2, score) else none)

/-- Line 59: Python's `scored_files.sort(key=lambda x: x[2], reverse=True)`
is a stable descending sort by score, embedded as a merge sort in which an
element goes before another iff its score is at least the other's. -/
def sorted_scored (query : String) (code_files : List (String × String)) :
    List (String × String × Nat) :=
  (scored_files_of query code_files).mergeSort (fun a b => decide (b.2.2 ≤ a.2.2))

/-- `find_relevant_files` (code_assistant.py lines 37-60): the first
`max_files` entries of the sorted positive-score list. -/
def find_relevant_files (query : String) (code_files : List (String × String))
    (max_files : Nat := 5) : List (String × String × Nat) :=
  (sorted_scored query code_files).take max_files

/-! ### Claim C4: zero score for short-token queries -/

/-- C4 counterexample: with query `x` (no token longer than 3 characters)
and a document whose path is `x`, the path-segment bonus fires and the
score is 10, not 0. -/
theorem keyword_score_path_bonus_cex :
    (∀ w ∈ pyWords (pyLower "x".data), w.length ≤ 3) ∧
    file_score (pyLower "x".data) "x".data "".data = 10 := by decide

/-- A fold over tokens none of which is longer than 3 characters adds
nothing. -/
theorem foldl_const_of_short (cl : List Char) :
    ∀ (l : List (List Char)) (acc : Nat), (∀ w ∈ l, w.length ≤ 3) →
      l.foldl (fun acc word => if 3 < word.length then acc + pyCount word cl else acc) acc = acc
  | [], acc, _ => rfl
  | w :: l, acc, h => by
    have hw : ¬ 3 < w.length := by
      have := h w (List.mem_cons_self w l)
      omega
    rw [List.foldl_cons, if_neg hw]
    exact foldl_const_of_short cl l acc (fun w' hw' => h w' (List.mem_cons_of_mem _ hw'))

/-- C4 amended: if no whitespace-separated token of the query is longer
than 3 characters AND no `/`-delimited segment of the document's path is a
substring of the lowercased query, then the keyword relevance score is 0. -/
theorem keyword_score_zero_of_short_tokens (query fp content : String)
    (h1 : ∀ w ∈ pyWords (pyLower query.data), w.length ≤ 3)
    (h2 : ∀ part ∈ pySplit ['/'] (pyLower fp.data),
        pyInStr part (pyLower query.data) = false) :
    file_score (pyLower query.data) fp.data content.data = 0 := by
  have hb : (pySplit ['/'] (pyLower fp.data)).any
      (fun part => pyInStr part (pyLower query.data)) = false := by
    rw [List.any_eq_false]
    intro part hp
    simp [h2 part hp]
  simp only [file_score, hb, Bool.false_eq_true, if_false]
  exact foldl_const_of_short _ _ _ h1

/-- C4 amended, witness: a short-token query against a document whose path
segments do not occur in the query scores 0. -/
theorem keyword_score_zero_of_short_tokens_witness :
    file_score (pyLower "is a".data) "zz/q.py".data "aaaa".data = 0 :=
  keyword_score_zero_of_short_tokens "is a" "zz/q.py" "aaaa" (by decide) (by decide)

/-! ### Claim C5: ranking stability -/

/-- A merge sort with a transitive total comparison does not reorder
elements that are mutually `le`-related: filtering to any such class gives
the input order back. -/
theorem mergeSort_filter_eq_of_mutual_le {α : Type} (le : α → α → Bool)
    (htrans : ∀ (a b c : α), le a b → le b c → le a c)
    (htotal : ∀ (a b : α), le a b || le b a)
    (p : α → Bool) (hp : ∀ a b, p a = true → p b = true → le a b = true)
    (l : List α) : (l.mergeSort le).filter p = l.filter p := by
  have hpair : (l.filter p).Pairwise (fun a b => le a b = true) :=
    List.pairwise_of_forall_mem_list (fun a ha b hb =>
      hp a b (List.of_mem_filter ha) (List.of_mem_filter hb))
  have hsub : List.Sublist (l.filter p) (l.mergeSort le) :=
    List.sublist_mergeSort htrans htotal hpair (List.filter_sublist l)
  have hself : (l.filter p).filter p = l.filter p :=
    List.filter_eq_self.mpr (fun a ha => List.of_mem_filter ha)
  have hsub2 : List.Sublist (l.filter p) ((l.mergeSort le).filter p) := by
    have h := hsub.filter p
    rwa [hself] at h
  have hlen : ((l.mergeSort le).filter p).length = (l.filter p).length :=
    ((List.mergeSort_perm l le).filter p).length_eq
  exact (hsub2.eq_of_length hlen.symm).symm

/-- C5: ranking is stable — `find_relevant_files` returns the first `k` of
the descending sort, and for every score value the documents holding that
score appear in the sorted output in exactly their input order. -/
theorem find_relevant_files_stable (query : String) (files : List (String × String)) (k s : Nat) :
    find_relevant_files query files k = (sorted_scored query files).take k ∧
    (sorted_scored query files).filter (fun x => x.2.2 == s)
      = (scored_files_of query files).filter (fun x => x.2.2 == s) := by
  refine ⟨rfl, ?_⟩
  apply mergeSort_filter_eq_of_mutual_le
  · intro a b c hab hbc
    simp only [decide_eq_true_eq] at *
    omega
  · intro a b
    rcases Nat.le_total b.2.2 a.2.2 with h | h <;> simp [h]
  · intro a b ha hb
    simp only [beq_iff_eq] at ha hb
    simp [ha, hb]

end QuizBot

namespace QuizBot

/-! ### Ingestion batching and retry (nsrag/populate_code_database.py,
`add_to_chroma` lines 124-153). The external `db.add_documents` call is
modelled by a failure oracle `fail b a` saying whether the call for batch
`b` raises on attempt `a`. -/

/-- `max_retries = 3` (populate_code_database.py line 137). -/
def max_retries : Nat := 3

/-- The `for attempt in range(max_retries)` loop of lines 138-148: on
success break with the successful attempt's index; on failure sleep and
retry while attempts remain, else re-raise (line 148), modelled as
`Except.error`. -/
def retry_add (fail : Nat → Bool) : Nat → Nat → Except Unit Nat
  | 0, _ => .error ()
  | remaining + 1, attempt =>
    if fail attempt then
      if remaining = 0 then .error () else retry_add fail remaining (attempt + 1)
    else .ok attempt

/-- How many insertion attempts the retry loop makes: one more than the
successful attempt's index, or `max_retries` when all fail. -/
def attempts_used (fail : Nat → Bool) : Nat :=
  match retry_add fail max_retries 0 with
  | .ok k => k + 1
  | .error _ => max_retries

/-- The outer `for i in range(0, len(new_chunks), batch_size)` loop of
lines 130-151: process batches left to right, committing each after its
retry loop succeeds; a batch that exhausts its retries aborts the run,
and the error result carries the batches already committed (no rollback). -/
def add_batches {α : Type} (fail : Nat → Nat → Bool) :
    List α → Nat → List α → Except (List α) (List α)
  | [], _, committed => .ok committed
  | b :: rest, i, committed =>
    match retry_add (fail i) max_retries 0 with
    | .ok _ => add_batches fail rest (i + 1) (committed ++ [b])
    | .error _ => .error committed

/-- `batch_size = 10` (line 127). -/
def batch_size : Nat := 10

/-- Auxiliary fuel-based slicing for `make_batches`; the fuel starts at
the list length and is always sufficient for a positive batch size. -/
def make_batches_go {α : Type} (bs : Nat) : Nat → List α → List (List α)
  | _, [] => []
  | 0, l => [l]
  | fuel + 1, l => l.take bs :: make_batches_go bs fuel (l.drop bs)

/-- Line 130-131: the slices `new_chunks[i:i+batch_size]`. -/
def make_batches {α : Type} (bs : Nat) (l : List α) : List (List α) :=
  make_batches_go bs l.length l

/-- The insertion stage of `add_to_chroma` (lines 124-153) on the new
chunks, returning the committed batches (inside `error` when the run
aborts after retry exhaustion). -/
def add_to_chroma {α : Type} (fail : Nat → Nat → Bool) (new_chunks : List α) :
    Except (List (List α)) (List (List α)) :=
  add_batches fail (make_batches batch_size new_chunks) 0 []

/-- Closed form of the three-attempt retry loop. -/
theorem retry_add_eq (f : Nat → Bool) :
    retry_add f max_retries 0 =
      (if f 0 = false then Except.ok 0 else if f 1 = false then Except.ok 1
       else if f 2 = false then Except.ok 2 else Except.error ()) := by
  show retry_add f 3 0 = _
  rcases h0 : f 0 with _ | _ <;> rcases h1 : f 1 with _ | _ <;> rcases h2 : f 2 with _ | _ <;>
    simp [retry_add, h0, h1, h2]

/-- The insertion call for a batch is attempted at most 3 times. -/
theorem attempts_used_le (f : Nat → Bool) : attempts_used f ≤ 3 := by
  rw [attempts_used, retry_add_eq]
  rcases h0 : f 0 with _ | _ <;> rcases h1 : f 1 with _ | _ <;> rcases h2 : f 2 with _ | _ <;>
    simp [h0, h1, h2, max_retries]

/-- A successful retry loop succeeded on its last attempt and every
earlier attempt failed: the call is never attempted again after its first
success. -/
theorem retry_add_ok_spec (f : Nat → Bool) (k : Nat)
    (h : retry_add f max_retries 0 = Except.ok k) :
    k < 3 ∧ f k = false ∧ ∀ j, j < k → f j = true := by
  rw [retry_add_eq] at h
  rcases h0 : f 0 with _ | _ <;> rcases h1 : f 1 with _ | _ <;> rcases h2 : f 2 with _ | _ <;>
    simp [h0, h1, h2] at h <;> subst h
  · exact ⟨by omega, h0, by omega⟩
  · exact ⟨by omega, h0, by omega⟩
  · exact ⟨by omega, h0, by omega⟩
  · exact ⟨by omega, h0, by omega⟩
  · refine ⟨by omega, h1, ?_⟩
    intro j hj
    interval_cases j
    exact h0
  · refine ⟨by omega, h1, ?_⟩
    intro j hj
    interval_cases j
    exact h0
  · refine ⟨by omega, h2, ?_⟩
    intro j hj
    interval_cases j
    · exact h0
    · exact h1

/-- The retry loop raises only after all three attempts fail. -/
theorem retry_add_error_spec (f : Nat → Bool)
    (h : retry_add f max_retries 0 = Except.error ()) :
    ∀ a, a < 3 → f a = true := by
  rw [retry_add_eq] at h
  rcases h0 : f 0 with _ | _ <;> rcases h1 : f 1 with _ | _ <;> rcases h2 : f 2 with _ | _ <;>
    simp [h0, h1, h2] at h
  intro a ha
  interval_cases a <;> assumption

/-- If some attempt among the three succeeds the retry loop returns `ok`. -/
theorem retry_add_ok_of_exists (f : Nat → Bool) (a : Nat) (ha : a < 3) (hfa : f a = false) :
    ∃ k, retry_add f max_retries 0 = Except.ok k := by
  rw [retry_add_eq]
  rcases h0 : f 0 with _ | _
  · exact ⟨0, by simp [h0]⟩
  · rcases h1 : f 1 with _ | _
    · exact ⟨1, by simp [h0, h1]⟩
    · rcases h2 : f 2 with _ | _
      · exact ⟨2, by simp [h0, h1, h2]⟩
      · exfalso
        interval_cases a <;> simp_all

/-- If batch `i` exhausts its retries and every earlier batch has a
succeeding attempt, the batch loop aborts at batch `i` with exactly the
first `i` batches committed. -/
theorem add_batches_error_at {α : Type} (fail : Nat → Nat → Bool) :
    ∀ (bs : List α) (i start : Nat) (committed : List α),
      i < bs.length →
      (∀ a, a < max_retries → fail (start + i) a = true) →
      (∀ j, j < i → ∃ a, a < max_retries ∧ fail (start + j) a = false) →
      add_batches fail bs start committed = Except.error (committed ++ bs.take i)
  | [], i, start, committed, hi, _, _ => by simp at hi
  | b :: rest, 0, start, committed, _, hfail, _ => by
    have herr : retry_add (fail start) max_retries 0 = Except.error () := by
      rw [retry_add_eq]
      have h0 := hfail 0 (by decide)
      have h1 := hfail 1 (by decide)
      have h2 := hfail 2 (by decide)
      rw [Nat.add_zero] at h0 h1 h2
      simp [h0, h1, h2]
    simp [add_batches, herr]
  | b :: rest, i + 1, start, committed, hi, hfail, hprev => by
    obtain ⟨a, ha, hfa⟩ := hprev 0 (Nat.succ_pos i)
    rw [Nat.add_zero] at hfa
    obtain ⟨k, hk⟩ := retry_add_ok_of_exists (fail start) a ha hfa
    have hrec := add_batches_error_at fail rest i (start + 1) (committed ++ [b])
      (by simpa using hi)
      (fun a' ha' => by
        have := hfail a' ha'
        rwa [show start + (i + 1) = start + 1 + i by omega] at this)
      (fun j hj => by
        obtain ⟨a', ha', hfa'⟩ := hprev (j + 1) (by omega)
        exact ⟨a', ha', by rwa [show start + (j + 1) = start + 1 + j by omega] at hfa'⟩)
    simp only [add_batches, hk, hrec, List.take_succ_cons]
    rw [List.append_assoc]
    rfl

/-- C8: for every run of `add_to_chroma` on a failure oracle, each batch's
insertion call is attempted at most 3 times and never again after its
first success; if all 3 attempts for batch `i` fail (and earlier batches
succeeded) the run aborts by re-raising with exactly the first `i` batches
still committed — later batches are not processed and committed batches
are not rolled back. -/
theorem add_to_chroma_retry_contract {α : Type} (fail : Nat → Nat → Bool) (chunks : List α)
    (i : Nat) (hi : i < (make_batches batch_size chunks).length)
    (hfail : ∀ a, a < max_retries → fail i a = true)
    (hprev : ∀ j, j < i → ∃ a, a < max_retries ∧ fail j a = false) :
    add_to_chroma fail chunks = Except.error ((make_batches batch_size chunks).take i) ∧
    (∀ f : Nat → Bool, attempts_used f ≤ 3) ∧
    (∀ (f : Nat → Bool) (k : Nat), retry_add f max_retries 0 = Except.ok k →
        f k = false ∧ ∀ j, j < k → f j = true) ∧
    (∀ f : Nat → Bool, retry_add f max_retries 0 = Except.error () →
        ∀ a, a < 3 → f a = true) := by
  refine ⟨?_, attempts_used_le, ?_, retry_add_error_spec⟩
  · have h := add_batches_error_at fail (make_batches batch_size chunks) i 0 [] hi
      (fun a ha => by simpa using hfail a ha)
      (fun j hj => by simpa using hprev j hj)
    simpa [add_to_chroma] using h
  · intro f k hk
    exact ⟨(retry_add_ok_spec f k hk).2.1, (retry_add_ok_spec f k hk).2.2⟩

/-- C8 witness: twelve chunks form two batches; batch 1 always failing
aborts the run with batch 0 still committed. -/
theorem add_to_chroma_retry_contract_witness :
    add_to_chroma (fun b _ => decide (b = 1)) (List.range 12) =
      Except.error ((make_batches batch_size (List.range 12)).take 1) ∧
    (∀ f : Nat → Bool, attempts_used f ≤ 3) ∧
    (∀ (f : Nat → Bool) (k : Nat), retry_add f max_retries 0 = Except.ok k →
        f k = false ∧ ∀ j, j < k → f j = true) ∧
    (∀ f : Nat → Bool, retry_add f max_retries 0 = Except.error () →
        ∀ a, a < 3 → f a = true) :=
  add_to_chroma_retry_contract (fun b _ => decide (b = 1)) (List.range 12) 1
    (by decide)
    (fun a _ => rfl)
    (fun j hj => ⟨0, by decide, by
      have : j = 0 := by omega
      subst this
      decide⟩)

end QuizBot
namespace QuizBot

/-! ### Chunk identifiers (nsrag/populate_code_database.py,
`calculate_chunk_ids` lines 159-177). A chunk is represented by its
`source` metadata string; the function's output is the list of assigned
`id` strings in chunk order. Supporting facts about `Nat.repr`
(decimal digit strings) are proved first. -/

/-- `Nat.toDigitsCore` prepends the digits in front of its accumulator. -/
theorem toDigitsCore_append : ∀ (fuel n : Nat) (ds : List Char),
    Nat.toDigitsCore 10 fuel n ds = Nat.toDigitsCore 10 fuel n [] ++ ds
  | 0, n, ds => by simp [Nat.toDigitsCore]
  | fuel + 1, n, ds => by
    simp only [Nat.toDigitsCore]
    by_cases h : n / 10 = 0
    · simp [h]
    · simp only [h, if_false]
      rw [toDigitsCore_append fuel (n / 10) (Nat.digitChar (n % 10) :: ds),
          toDigitsCore_append fuel (n / 10) [Nat.digitChar (n % 10)]]
      simp

/-- The fuel of `Nat.toDigitsCore` is irrelevant once sufficient. -/
theorem toDigitsCore_fuel : ∀ (f1 f2 n : Nat), 0 < f1 → 0 < f2 →
    n < 10 ^ f1 → n < 10 ^ f2 →
    Nat.toDigitsCore 10 f1 n [] = Nat.toDigitsCore 10 f2 n []
  | 0, _, _, h1, _, _, _ => absurd h1 (by omega)
  | _, 0, _, _, h2, _, _ => absurd h2 (by omega)
  | k + 1, m + 1, n, _, _, hn1, hn2 => by
    simp only [Nat.toDigitsCore]
    by_cases h : n / 10 = 0
    · simp [h]
    · simp only [h, if_false]
      rw [toDigitsCore_append k (n / 10) [Nat.digitChar (n % 10)],
          toDigitsCore_append m (n / 10) [Nat.digitChar (n % 10)]]
      have hk : 0 < k := by
        rcases Nat.eq_zero_or_pos k with hk0 | hk0
        · subst hk0
          simp at hn1
          omega
        · exact hk0
      have hm : 0 < m := by
        rcases Nat.eq_zero_or_pos m with hm0 | hm0
        · subst hm0
          simp at hn2
          omega
        · exact hm0
      rw [toDigitsCore_fuel k m (n / 10) hk hm
        ((Nat.div_lt_iff_lt_mul (by omega)).mpr (by rw [← pow_succ]; exact hn1))
        ((Nat.div_lt_iff_lt_mul (by omega)).mpr (by rw [← pow_succ]; exact hn2))]

/-- Decimal digits of a one-digit number. -/
theorem toDigits_of_lt (n : Nat) (h : n < 10) :
    Nat.toDigits 10 n = [Nat.digitChar n] := by
  have hd : n / 10 = 0 := Nat.div_eq_of_lt h
  have hm : n % 10 = n := Nat.mod_eq_of_lt h
  simp [Nat.toDigits, Nat.toDigitsCore, hd, hm]

/-- Unfolding equation for the decimal digits of a multi-digit number. -/
theorem toDigits_of_ge (n : Nat) (h : 10 ≤ n) :
    Nat.toDigits 10 n = Nat.toDigits 10 (n / 10) ++ [Nat.digitChar (n % 10)] := by
  have hd : n / 10 ≠ 0 := by
    intro h0
    have := Nat.div_add_mod n 10
    have : n % 10 < 10 := Nat.mod_lt n (by omega)
    omega
  show Nat.toDigitsCore 10 (n + 1) n [] = _
  simp only [Nat.toDigitsCore, hd, if_false]
  rw [toDigitsCore_append n (n / 10) [Nat.digitChar (n % 10)]]
  congr 1
  show Nat.toDigitsCore 10 n (n / 10) [] = Nat.toDigitsCore 10 (n / 10 + 1) (n / 10) []
  exact toDigitsCore_fuel n (n / 10 + 1) (n / 10) (by omega) (by omega)
    (lt_of_le_of_lt (Nat.div_le_self n 10) (Nat.lt_pow_self (by norm_num) n))
    (lt_of_lt_of_le (Nat.lt_pow_self (by norm_num) (n / 10))
      (Nat.pow_le_pow_right (by omega) (by omega)))

/-- A decimal digit string is never empty. -/
theorem toDigits_ne_nil (n : Nat) : Nat.toDigits 10 n ≠ [] := by
  by_cases h : n < 10
  · rw [toDigits_of_lt n h]
    simp
  · rw [toDigits_of_ge n (by omega)]
    simp

end QuizBot
namespace QuizBot

/-- Digit characters below base 10 are decimal digits. -/
theorem digitChar_isDigit : ∀ m, m < 10 → (Nat.digitChar m).isDigit = true := by decide

/-- `Nat.digitChar` is injective below 10. -/
theorem digitChar_inj_lt : ∀ a, a < 10 → ∀ b, b < 10 → Nat.digitChar a = Nat.digitChar b → a = b := by decide

/-- Every character of a decimal digit string is a decimal digit. -/
theorem toDigits_all_digits (n : Nat) : ∀ c ∈ Nat.toDigits 10 n, c.isDigit = true := by
  induction n using Nat.strong_induction_on with
  | _ n ih =>
    by_cases h : n < 10
    · rw [toDigits_of_lt n h]
      intro c hc
      rw [List.mem_singleton] at hc
      subst hc
      exact digitChar_isDigit n h
    · rw [toDigits_of_ge n (by omega)]
      intro c hc
      rcases List.mem_append.mp hc with hc | hc
      · exact ih (n / 10) (Nat.div_lt_self (by omega) (by omega)) c hc
      · rw [List.mem_singleton] at hc
        subst hc
        exact digitChar_isDigit _ (Nat.mod_lt n (by omega))

/-- A decimal digit string never contains a colon. -/
theorem colon_not_mem_toDigits (n : Nat) : ':' ∉ Nat.toDigits 10 n := by
  intro h
  have := toDigits_all_digits n ':' h
  simp [Char.isDigit] at this

/-- Decimal digit strings determine the number. -/
theorem toDigits_inj : ∀ m n : Nat, Nat.toDigits 10 m = Nat.toDigits 10 n → m = n := by
  intro m
  induction m using Nat.strong_induction_on with
  | _ m ih =>
    intro n h
    by_cases hm : m < 10 <;> by_cases hn : n < 10
    · rw [toDigits_of_lt m hm, toDigits_of_lt n hn] at h
      exact digitChar_inj_lt m hm n hn (List.singleton_injective h)
    · rw [toDigits_of_lt m hm, toDigits_of_ge n (by omega)] at h
      rcases hx : Nat.toDigits 10 (n / 10) with _ | ⟨c, t⟩
      · exact absurd hx (toDigits_ne_nil _)
      · rw [hx] at h
        simp at h
    · rw [toDigits_of_ge m (by omega), toDigits_of_lt n hn] at h
      rcases hx : Nat.toDigits 10 (m / 10) with _ | ⟨c, t⟩
      · exact absurd hx (toDigits_ne_nil _)
      · rw [hx] at h
        simp at h
    · rw [toDigits_of_ge m (by omega), toDigits_of_ge n (by omega)] at h
      obtain ⟨h1, h2⟩ := List.append_inj' h rfl
      have hdiv : m / 10 = n / 10 :=
        ih (m / 10) (Nat.div_lt_self (by omega) (by omega)) (n / 10) h1
      have hmod : m % 10 = n % 10 :=
        digitChar_inj_lt _ (Nat.mod_lt m (by omega)) _ (Nat.mod_lt n (by omega))
          (List.singleton_injective h2)
      omega

/-- Splitting at the last colon: if the parts after the final colon are
colon-free, an equality of `s ++ ":" ++ d` strings forces both parts
equal. -/
theorem colon_append_inj : ∀ (s1 : List Char) {s2 d1 d2 : List Char},
    ':' ∉ d1 → ':' ∉ d2 → s1 ++ ':' :: d1 = s2 ++ ':' :: d2 → s1 = s2 ∧ d1 = d2
  | [], s2, d1, d2, h1, h2, h => by
    cases s2 with
    | nil =>
      simp at h
      exact ⟨rfl, h⟩
    | cons b t =>
      simp at h
      obtain ⟨hb, ht⟩ := h
      exfalso
      apply h1
      rw [ht]
      exact List.mem_append_right t (List.mem_cons_self ':' d2)
  | a :: t1, s2, d1, d2, h1, h2, h => by
    cases s2 with
    | nil =>
      simp at h
      obtain ⟨hb, ht⟩ := h
      exfalso
      apply h2
      rw [← ht]
      exact List.mem_append_right t1 (List.mem_cons_self ':' d1)
    | cons b t2 =>
      simp at h
      obtain ⟨hb, ht⟩ := h
      obtain ⟨hs, hd⟩ := colon_append_inj t1 h1 h2 ht
      exact ⟨by rw [hb, hs], hd⟩

end QuizBot
namespace QuizBot

/-- The identifier assigned to a chunk: the Python f-string
`f"{current_source}:{current_chunk_index}"` with
`current_source = f"code:{source}"` (lines 166, 173). -/
def chunk_id (source : List Char) (idx : Nat) : List Char :=
  ("code:".data ++ source) ++ ':' :: (Nat.repr idx).data

/-- The loop of `calculate_chunk_ids` (lines 161-175): state is
`last_source` (initially `None`) and `current_chunk_index`; the index is
incremented when the prefixed source equals the previous one and reset to
0 otherwise. -/
def calculate_chunk_ids_go : Option (List Char) → Nat → List (List Char) → List (List Char)
  | _, _, [] => []
  | last_source, cci, source :: rest =>
    let current_source := "code:".data ++ source
    let idx := if some current_source = last_source then cci + 1 else 0
    chunk_id source idx :: calculate_chunk_ids_go (some current_source) idx rest

/-- `calculate_chunk_ids` (populate_code_database.py lines 159-177),
returning the assigned id of each chunk in order. -/
def calculate_chunk_ids (sources : List (List Char)) : List (List Char) :=
  calculate_chunk_ids_go none 0 sources

/-- The sequential indices the loop assigns, same recursion as
`calculate_chunk_ids_go`. -/
def chunk_indices_go : Option (List Char) → Nat → List (List Char) → List Nat
  | _, _, [] => []
  | last_source, cci, source :: rest =>
    let current_source := "code:".data ++ source
    let idx := if some current_source = last_source then cci + 1 else 0
    idx :: chunk_indices_go (some current_source) idx rest

/-- Prefixing with `code:` is injective. -/
theorem code_prefix_inj {s t : List Char} (h : "code:".data ++ s = "code:".data ++ t) : s = t :=
  List.append_cancel_left h

/-- One index is assigned per chunk. -/
theorem chunk_indices_go_length : ∀ (sources : List (List Char)) (last : Option (List Char)) (cci : Nat),
    (chunk_indices_go last cci sources).length = sources.length
  | [], _, _ => rfl
  | s :: rest, last, cci => by
    simp only [chunk_indices_go, List.length_cons]
    rw [chunk_indices_go_length rest]

/-- The assigned ids are the sources zipped with the assigned indices. -/
theorem calc_go_eq_zipWith : ∀ (sources : List (List Char)) (last : Option (List Char)) (cci : Nat),
    calculate_chunk_ids_go last cci sources
      = List.zipWith chunk_id sources (chunk_indices_go last cci sources)
  | [], _, _ => rfl
  | s :: rest, last, cci => by
    simp only [calculate_chunk_ids_go, chunk_indices_go, List.zipWith_cons_cons]
    rw [calc_go_eq_zipWith rest]

/-- The first chunk's index is 0 (initial `last_source = None` never
equals a prefixed source). -/
theorem chunk_indices_first (sources : List (List Char)) :
    ∀ n, (chunk_indices_go none 0 sources)[0]? = some n → n = 0 := by
  cases sources with
  | nil => intro n h; simp [chunk_indices_go] at h
  | cons s rest =>
    intro n h
    simp [chunk_indices_go] at h
    omega

/-- Successive indices: reset to 0 on a source change, previous index
plus one otherwise. -/
theorem chunk_indices_rec : ∀ (sources : List (List Char)) (last : Option (List Char)) (cci i : Nat)
    (s s' : List Char) (n n' : Nat),
    sources[i]? = some s → sources[i + 1]? = some s' →
    (chunk_indices_go last cci sources)[i]? = some n →
    (chunk_indices_go last cci sources)[i + 1]? = some n' →
    n' = if s' = s then n + 1 else 0
  | [], _, _, i, s, s', n, n', h1, _, _, _ => by simp at h1
  | [s0], _, _, 0, s, s', n, n', _, h2, _, _ => by simp at h2
  | s0 :: s1 :: rest, last, cci, 0, s, s', n, n', h1, h2, h3, h4 => by
    simp only [List.getElem?_cons_zero, List.getElem?_cons_succ, Option.some.injEq] at h1 h2
    subst h1
    subst h2
    simp only [chunk_indices_go, List.getElem?_cons_zero, List.getElem?_cons_succ,
      Option.some.injEq] at h3 h4
    subst h3
    subst h4
    by_cases hss : s1 = s0
    · subst hss
      simp
    · rw [if_neg hss, if_neg]
      intro hcur
      exact hss (code_prefix_inj hcur)
  | s0 :: rest, last, cci, i + 1, s, s', n, n', h1, h2, h3, h4 => by
    simp only [List.getElem?_cons_succ] at h1 h2
    simp only [chunk_indices_go, List.getElem?_cons_succ] at h3 h4
    exact chunk_indices_rec rest _ _ i s s' n n' h1 h2 h3 h4

/-- C9: `calculate_chunk_ids` assigns each chunk the identifier
`"code:" + source + ":" + index` where the index list starts at 0 and the
index is 0 whenever the source differs from the immediately preceding
chunk's source and the preceding index plus 1 otherwise. -/
theorem calculate_chunk_ids_spec (sources : List (List Char)) :
    ∃ ns : List Nat,
      ns.length = sources.length ∧
      calculate_chunk_ids sources = List.zipWith chunk_id sources ns ∧
      (∀ n, ns[0]? = some n → n = 0) ∧
      (∀ i s s' n n', sources[i]? = some s → sources[i + 1]? = some s' →
        ns[i]? = some n → ns[i + 1]? = some n' → n' = if s' = s then n + 1 else 0) :=
  ⟨chunk_indices_go none 0 sources,
   chunk_indices_go_length sources none 0,
   calc_go_eq_zipWith sources none 0,
   chunk_indices_first sources,
   fun i s s' n n' h1 h2 h3 h4 => chunk_indices_rec sources none 0 i s s' n n' h1 h2 h3 h4⟩

/-- C9 witness: the id format and index recurrence instantiated on two
chunks of source `a` followed by one of source `b`. -/
theorem calculate_chunk_ids_spec_witness :
    ∃ ns : List Nat,
      ns.length = ([['a'], ['a'], ['b']] : List (List Char)).length ∧
      calculate_chunk_ids [['a'], ['a'], ['b']] = List.zipWith chunk_id [['a'], ['a'], ['b']] ns ∧
      (∀ n, ns[0]? = some n → n = 0) ∧
      (∀ i s s' n n', ([['a'], ['a'], ['b']] : List (List Char))[i]? = some s →
        ([['a'], ['a'], ['b']] : List (List Char))[i + 1]? = some s' →
        ns[i]? = some n → ns[i + 1]? = some n' → n' = if s' = s then n + 1 else 0) :=
  calculate_chunk_ids_spec [['a'], ['a'], ['b']]

end QuizBot
namespace QuizBot

/-- Chunk identifiers determine the source and the index: the decimal
index after the final colon is colon-free, so the split is unambiguous. -/
theorem chunk_id_inj {s s' : List Char} {i i' : Nat} (h : chunk_id s i = chunk_id s' i') :
    s = s' ∧ i = i' := by
  unfold chunk_id at h
  have hd : (Nat.repr i).data = Nat.toDigits 10 i := rfl
  have hd' : (Nat.repr i').data = Nat.toDigits 10 i' := rfl
  rw [hd, hd'] at h
  obtain ⟨h1, h2⟩ := colon_append_inj _ (colon_not_mem_toDigits i) (colon_not_mem_toDigits i') h
  exact ⟨code_prefix_inj h1, toDigits_inj _ _ h2⟩

/-- Chunk sequences in which chunks sharing a source are contiguous: a
sequence of maximal runs of distinct sources, as produced by splitting
documents one at a time. -/
inductive Grouped : List (List Char) → Prop
  | nil : Grouped []
  | block (s : List Char) (n : Nat) {rest : List (List Char)} (hnot : s ∉ rest)
      (h : Grouped rest) : Grouped (List.replicate (n + 1) s ++ rest)

/-- Every assigned id is the `chunk_id` of some source in the input. -/
theorem calc_go_mem : ∀ (sources : List (List Char)) (last : Option (List Char)) (cci : Nat)
    (cid : List Char), cid ∈ calculate_chunk_ids_go last cci sources →
    ∃ s ∈ sources, ∃ k, cid = chunk_id s k
  | [], _, _, cid, h => by simp [calculate_chunk_ids_go] at h
  | s0 :: rest, last, cci, cid, h => by
    simp only [calculate_chunk_ids_go, List.mem_cons] at h
    rcases h with h | h
    · exact ⟨s0, List.mem_cons_self _ _, _, h⟩
    · obtain ⟨s, hs, k, hk⟩ := calc_go_mem rest _ _ cid h
      exact ⟨s, List.mem_cons_of_mem _ hs, k, hk⟩

/-- Unfolding equation for one step of the id loop. -/
theorem calc_go_cons (last : Option (List Char)) (cci : Nat) (s : List Char)
    (tail : List (List Char)) :
    calculate_chunk_ids_go last cci (s :: tail)
      = chunk_id s (if some ("code:".data ++ s) = last then cci + 1 else 0)
        :: calculate_chunk_ids_go (some ("code:".data ++ s))
            (if some ("code:".data ++ s) = last then cci + 1 else 0) tail := rfl

/-- Inside a run of one source the loop assigns consecutive indices. -/
theorem calc_go_replicate : ∀ (k : Nat) (s : List Char) (cci : Nat) (rest : List (List Char)),
    calculate_chunk_ids_go (some ("code:".data ++ s)) cci (List.replicate k s ++ rest)
      = (List.range k).map (fun j => chunk_id s (cci + 1 + j))
        ++ calculate_chunk_ids_go (some ("code:".data ++ s)) (cci + k) rest
  | 0, s, cci, rest => by simp
  | k + 1, s, cci, rest => by
    show calculate_chunk_ids_go (some ("code:".data ++ s)) cci
        (s :: (List.replicate k s ++ rest)) = _
    rw [calc_go_cons, if_pos rfl]
    rw [calc_go_replicate k s (cci + 1) rest, List.range_succ_eq_map, List.map_cons, List.map_map]
    rw [show cci + 1 + k = cci + (k + 1) from by omega]
    rw [List.cons_append (chunk_id s (cci + 1 + 0)) _ _, Nat.add_zero]
    congr 2
    apply List.map_congr_left
    intro j _
    simp only [Function.comp]
    congr 1
    omega

/-- Ids of one source with consecutive indices are pairwise distinct. -/
theorem chunk_run_nodup (s : List Char) (c k : Nat) :
    ((List.range k).map (fun j => chunk_id s (c + j))).Nodup := by
  refine List.Nodup.map ?_ (List.nodup_range k)
  intro a b hab
  have := (chunk_id_inj hab).2
  omega

/-- Grouped sources yield pairwise distinct ids from any loop state. -/
theorem calc_go_nodup : ∀ (sources : List (List Char)), Grouped sources →
    ∀ (last : Option (List Char)) (cci : Nat),
    (calculate_chunk_ids_go last cci sources).Nodup := by
  intro sources h
  induction h with
  | nil =>
    intro last cci
    simp [calculate_chunk_ids_go]
  | block s n hnot hg ih =>
    intro last cci
    rename_i rest
    show (calculate_chunk_ids_go last cci (s :: (List.replicate n s ++ rest))).Nodup
    rw [calc_go_cons]
    set idx0 := if some ("code:".data ++ s) = last then cci + 1 else 0 with hidx
    rw [calc_go_replicate n s idx0 rest]
    rw [← List.cons_append]
    have hblock : chunk_id s idx0 :: (List.range n).map (fun j => chunk_id s (idx0 + 1 + j))
        = (List.range (n + 1)).map (fun j => chunk_id s (idx0 + j)) := by
      rw [List.range_succ_eq_map, List.map_cons, List.map_map, Nat.add_zero]
      congr 1
      apply List.map_congr_left
      intro j _
      simp only [Function.comp]
      congr 1
      omega
    rw [hblock, List.nodup_append]
    refine ⟨chunk_run_nodup s idx0 (n + 1), ih _ _, ?_⟩
    intro a ha hb
    simp only [List.mem_map, List.mem_range] at ha
    obtain ⟨j, _, hj⟩ := ha
    obtain ⟨s', hs', k', hk'⟩ := calc_go_mem rest _ _ a hb
    rw [← hj] at hk'
    have := (chunk_id_inj hk').1
    exact hnot (this ▸ hs')

/-- C10: for chunk sequences in which chunks sharing a source are
contiguous, the identifiers produced by `calculate_chunk_ids` are pairwise
distinct, so the membership-based de-duplication filter of `add_to_chroma`
adds each chunk at most once. -/
theorem calculate_chunk_ids_nodup (sources : List (List Char)) (h : Grouped sources) :
    (calculate_chunk_ids sources).Nodup :=
  calc_go_nodup sources h none 0

/-- C10 witness: two chunks of source `a` followed by one of source `b`
receive three distinct identifiers. -/
theorem calculate_chunk_ids_nodup_witness :
    Grouped [['a'], ['a'], ['b']] ∧ (calculate_chunk_ids [['a'], ['a'], ['b']]).Nodup := by
  have hg : Grouped [['a'], ['a'], ['b']] :=
    Grouped.block ['a'] 1 (by decide) (Grouped.block ['b'] 0 (by decide) Grouped.nil)
  exact ⟨hg, calculate_chunk_ids_nodup _ hg⟩

end QuizBot
